import Mathlib

/-!
Verification of the ELF-shaped loader/parser of `runtime/oat` (class
`art::ElfFileImpl`, declared in `runtime/oat/elf_file_impl.h`).  The
repository snapshot contains only the class declaration, so the operation
bodies are modelled from the design document: each modelled definition
carries a doc comment saying what it stands for.  Machine words are
modelled as `Nat` with explicit reduction modulo `2 ^ 32` where 32-bit
overflow matters; fallible operations return `Option` or `Except`.
-/

namespace ElfFile

/-- Symbol names are byte strings, modelled as lists of byte values. -/
abbrev Name := List Nat

/-- Modelled from the spec: one byte step of the standard ELF rolling hash
used by `FindDynamicSymbolAddress` (body of the hash routine is not in the
snapshot).  `h = (h << 4) + byte` in 32-bit arithmetic; if the top nibble
`g` of `h` is set, `h ^= g >> 24` and `h &= ~g`. -/
def elfHashStep (h b : Nat) : Nat :=
  let h1 := (h * 16 + b) % 2 ^ 32
  let g := h1 &&& 0xf0000000
  if g ≠ 0 then (h1 ^^^ (g >>> 24)) &&& (0xffffffff ^^^ g) else h1

/-- Modelled from the spec: the standard byte-wise ELF symbol hash,
folding `elfHashStep` over the name starting from 0. -/
def elf_hash (name : Name) : Nat :=
  name.foldl elfHashStep 0

/-- Modelled from the spec: a dynamic-symbol-table entry (`Elf_Sym`) with
its string-table name already resolved through `GetString`; `none` stands
for the reserved zero string-table offset, for which `GetString` returns
null. -/
structure Sym where
  name : Option Name
  value : Nat
deriving DecidableEq

/-- Modelled from the spec: the part of a loaded image consulted by
dynamic-symbol resolution — the dynamic symbol table, and the hash table's
bucket array (`nbucket` entries) and chain array (`nchain` entries). -/
structure Image where
  syms : List Sym
  bucket : List Nat
  chain : List Nat
deriving DecidableEq

/-- Modelled from the spec: `GetHashBucketNum`, the number of bucket
entries of the hash table. -/
def Image.nbucket (img : Image) : Nat := img.bucket.length

/-- Modelled from the spec: `GetHashChainNum`, the number of chain entries
of the hash table. -/
def Image.nchain (img : Image) : Nat := img.chain.length

/-- Modelled from the spec: `GetHashBucket(i, ok)` — the bucket entry at
`i`, range-checked against `nbucket` (`none` is the `!ok` outcome). -/
def GetHashBucket (img : Image) (i : Nat) : Option Nat := img.bucket[i]?

/-- Modelled from the spec: `GetHashChain(i, ok)` — the chain entry at
`i`, range-checked against `nchain` (`none` is the `!ok` outcome). -/
def GetHashChain (img : Image) (i : Nat) : Option Nat := img.chain[i]?

/-- Modelled from the spec: `GetSymbol(SHT_DYNSYM, i)` — the dynamic
symbol at index `i`, bounds-checked (`none` is the null-pointer
outcome). -/
def GetSymbol (img : Image) (i : Nat) : Option Sym := img.syms[i]?

/-- Resolved string-table name of the symbol at index `i`, or `none` when
the index is out of range or the name offset is the reserved zero. -/
def symName (img : Image) (i : Nat) : Option Name :=
  (GetSymbol img i).bind Sym.name

/-- Modelled from the spec: the hash-chain walk of `FindDynamicSymbol`.
Starting from candidate index `i`, stop at the terminator 0, fetch the
candidate symbol (bounds-checked), return it if its name matches, else
follow `chain[i]` (bounds-checked).  The walk carries a visited-count
fuel so that it traverses at most `fuel` chain links even on a corrupted
chain array containing a cycle. -/
def findChain (img : Image) (name : Name) : Nat → Nat → Option Sym
  | 0, _ => none
  | fuel + 1, i =>
    if i = 0 then none
    else
      match GetSymbol img i with
      | none => none
      | some s =>
        if s.name = some name then some s
        else
          match GetHashChain img i with
          | none => none
          | some j => findChain img name fuel j

/-- Modelled from the spec: `FindDynamicSymbol` — hash the name, consult
the bucket at `elf_hash(name) mod nbucket` (range-checked), then walk the
chain with a visited bound of `nchain`. -/
def FindDynamicSymbol (img : Image) (name : Name) : Option Sym :=
  match GetHashBucket img (elf_hash name % img.nbucket) with
  | none => none
  | some c => findChain img name img.nchain c

/-- Modelled from the spec: `FindDynamicSymbolAddress` — resolve the
symbol through the hash table and return `base_address_ + st_value`, or
not-found. -/
def FindDynamicSymbolAddress (img : Image) (base : Nat) (name : Name) : Option Nat :=
  (FindDynamicSymbol img name).map (fun s => base + s.value)

/-- Reference resolver for the refinement claim, following the spec's
words: a linear scan of the dynamic symbol table matching on name. -/
def linearScanSymbol (img : Image) (name : Name) : Option Sym :=
  img.syms.find? (fun s => decide (s.name = some name))

/-- Reference resolver address: the linearly scanned symbol's
`base_address_ + st_value`. -/
def linearScanAddress (img : Image) (base : Nat) (name : Name) : Option Nat :=
  (linearScanSymbol img name).map (fun s => base + s.value)

/-- Candidate indices actually visited by the hash-chain walk (mirroring
`findChain` step by step: stops at the terminator, at a failed symbol
fetch, at a failed chain fetch, and at fuel exhaustion). -/
def chainWalkIndices (img : Image) : Nat → Nat → List Nat
  | 0, _ => []
  | fuel + 1, i =>
    if i = 0 then []
    else
      match GetSymbol img i with
      | none => []
      | some _ =>
        i :: (match GetHashChain img i with
              | none => []
              | some j => chainWalkIndices img fuel j)

/-- Whether the hash-chain structure actually reaches slot `i`: the walk
started at the bucket selected by the hash of the name stored at `i`
visits `i` within `nchain` steps.  Vacuously true for unnamed slots. -/
def reachOk (img : Image) (i : Nat) : Bool :=
  match symName img i with
  | none => true
  | some nm =>
    match GetHashBucket img (elf_hash nm % img.nbucket) with
    | none => false
    | some c => decide (i ∈ chainWalkIndices img img.nchain c)

/-- Well-formedness of a loaded image's dynamic-symbol hash structure:
a nonempty bucket array, every named symbol slot reachable from its hash
bucket, and no two distinct slots carrying the same name. -/
def WellFormed (img : Image) : Prop :=
  0 < img.nbucket ∧
  (∀ i, i < img.syms.length → reachOk img i = true) ∧
  (∀ i, i < img.syms.length → ∀ j, j < img.syms.length →
    symName img i ≠ none → symName img i = symName img j → i = j)

instance (img : Image) : Decidable (WellFormed img) :=
  @instDecidableAnd _ _ inferInstance (@instDecidableAnd _ _ inferInstance inferInstance)

/-- Instrumented hash-chain walk that also counts the chain links
traversed, mirroring `findChain` step by step. -/
def findChainSteps (img : Image) (name : Name) : Nat → Nat → Option Sym × Nat
  | 0, _ => (none, 0)
  | fuel + 1, i =>
    if i = 0 then (none, 0)
    else
      match GetSymbol img i with
      | none => (none, 0)
      | some s =>
        if s.name = some name then (some s, 0)
        else
          match GetHashChain img i with
          | none => (none, 0)
          | some j =>
            let r := findChainSteps img name fuel j
            (r.1, r.2 + 1)

/-- Number of chain links the resolution of `name` traverses. -/
def FindDynamicSymbolLinks (img : Image) (name : Name) : Nat :=
  match GetHashBucket img (elf_hash name % img.nbucket) with
  | none => 0
  | some c => (findChainSteps img name img.nchain c).2

/-- One performed read of the hash table's arrays. -/
inductive HashAccess where
  | bucketAt (i : Nat)
  | chainAt (i : Nat)
deriving DecidableEq

/-- An access is in range when its index is below the declared length of
the array it reads. -/
def accessInRange (img : Image) : HashAccess → Prop
  | .bucketAt i => i < img.nbucket
  | .chainAt i => i < img.nchain

/-- Instrumented hash-chain walk that also records every performed read of
the chain array, mirroring `findChain` step by step. -/
def findChainTrace (img : Image) (name : Name) : Nat → Nat → Option Sym × List HashAccess
  | 0, _ => (none, [])
  | fuel + 1, i =>
    if i = 0 then (none, [])
    else
      match GetSymbol img i with
      | none => (none, [])
      | some s =>
        if s.name = some name then (some s, [])
        else
          match GetHashChain img i with
          | none => (none, [])
          | some j =>
            let r := findChainTrace img name fuel j
            (r.1, HashAccess.chainAt i :: r.2)

/-- Instrumented `FindDynamicSymbol`, recording every performed read of
the bucket and chain arrays. -/
def FindDynamicSymbolTraced (img : Image) (name : Name) : Option Sym × List HashAccess :=
  match GetHashBucket img (elf_hash name % img.nbucket) with
  | none => (none, [])
  | some c =>
    let r := findChainTrace img name img.nchain c
    (r.1, HashAccess.bucketAt (elf_hash name % img.nbucket) :: r.2)

lemma findChain_some (img : Image) (name : Name) :
    ∀ fuel i s, findChain img name fuel i = some s →
      ∃ j, j ∈ chainWalkIndices img fuel i ∧ GetSymbol img j = some s ∧
        s.name = some name := by
  intro fuel
  induction fuel with
  | zero => intro i s h; simp [findChain] at h
  | succ fuel ih =>
    intro i s h
    simp only [findChain] at h
    by_cases hi : i = 0
    · simp [hi] at h
    rw [if_neg hi] at h
    cases hsym : GetSymbol img i with
    | none => simp [hsym] at h
    | some si =>
      simp only [hsym] at h
      by_cases hn : si.name = some name
      · rw [if_pos hn] at h
        obtain rfl : si = s := Option.some.inj h
        exact ⟨i, by simp [chainWalkIndices, hi, hsym], hsym, hn⟩
      · rw [if_neg hn] at h
        cases hch : GetHashChain img i with
        | none => simp [hch] at h
        | some j =>
          simp only [hch] at h
          obtain ⟨j1, hmem, hsy, hnm⟩ := ih j s h
          refine ⟨j1, ?_, hsy, hnm⟩
          simp only [chainWalkIndices, if_neg hi, hsym, hch]
          exact List.mem_cons_of_mem i hmem

lemma findChain_complete (img : Image) (name : Name) :
    ∀ fuel i j, j ∈ chainWalkIndices img fuel i → symName img j = some name →
      ∃ s, findChain img name fuel i = some s ∧ s.name = some name := by
  intro fuel
  induction fuel with
  | zero => intro i j hj _; simp [chainWalkIndices] at hj
  | succ fuel ih =>
    intro i j hj hname
    simp only [chainWalkIndices] at hj
    by_cases hi : i = 0
    · simp [hi] at hj
    rw [if_neg hi] at hj
    cases hsym : GetSymbol img i with
    | none => simp only [hsym] at hj; simp at hj
    | some si =>
      simp only [hsym] at hj
      by_cases hn : si.name = some name
      · exact ⟨si, by simp [findChain, if_neg hi, hsym, hn], hn⟩
      · have hji : j ≠ i := by
          intro e
          apply hn
          have hs : symName img i = si.name := by simp [symName, hsym]
          rw [← hs, ← e]
          exact hname
        rcases List.mem_cons.mp hj with he | hr
        · exact absurd he hji
        cases hch : GetHashChain img i with
        | none => simp only [hch] at hr; simp at hr
        | some k =>
          simp only [hch] at hr
          obtain ⟨s, hs, hn1⟩ := ih k j hr hname
          exact ⟨s, by simp [findChain, if_neg hi, hsym, hn, hch, hs], hn1⟩

lemma getSymbol_lt (img : Image) {i : Nat} {s : Sym} (h : GetSymbol img i = some s) :
    i < img.syms.length :=
  (List.getElem?_eq_some.mp h).1

lemma findChainSteps_fst (img : Image) (name : Name) :
    ∀ fuel i, (findChainSteps img name fuel i).1 = findChain img name fuel i := by
  intro fuel
  induction fuel with
  | zero => intro i; simp [findChainSteps, findChain]
  | succ fuel ih =>
    intro i
    simp only [findChainSteps, findChain]
    by_cases hi : i = 0
    · simp [hi]
    rw [if_neg hi, if_neg hi]
    cases hsym : GetSymbol img i with
    | none => simp
    | some si =>
      simp only
      by_cases hn : si.name = some name
      · simp [hn]
      · rw [if_neg hn, if_neg hn]
        cases hch : GetHashChain img i with
        | none => simp
        | some j => simpa using ih j

lemma findChainSteps_le (img : Image) (name : Name) :
    ∀ fuel i, (findChainSteps img name fuel i).2 ≤ fuel := by
  intro fuel
  induction fuel with
  | zero => intro i; simp [findChainSteps]
  | succ fuel ih =>
    intro i
    simp only [findChainSteps]
    by_cases hi : i = 0
    · simp [hi]
    rw [if_neg hi]
    cases hsym : GetSymbol img i with
    | none => simp
    | some si =>
      simp only
      by_cases hn : si.name = some name
      · simp [hn]
      · rw [if_neg hn]
        cases hch : GetHashChain img i with
        | none => simp
        | some j => simpa using Nat.succ_le_succ (ih j)

/-- C1: for every well-formed loaded image, `FindDynamicSymbolAddress`
agrees with a linear scan of the dynamic symbol table matching on name —
on a name present in the table both return the same address, and on a
name absent from the table both report not-found. -/
theorem findDynamicSymbolAddress_eq_linearScan (img : Image) (base : Nat) (name : Name)
    (hwf : WellFormed img) :
    FindDynamicSymbolAddress img base name = linearScanAddress img base name := by
  obtain ⟨hb, hreach, huniq⟩ := hwf
  by_cases hpres : ∃ j, j < img.syms.length ∧ symName img j = some name
  · obtain ⟨j0, hj0, hname0⟩ := hpres
    have hr := hreach j0 hj0
    simp only [reachOk, hname0] at hr
    cases hbk : GetHashBucket img (elf_hash name % img.nbucket) with
    | none => rw [hbk] at hr; simp at hr
    | some c =>
      rw [hbk] at hr
      simp only [decide_eq_true_eq] at hr
      obtain ⟨s, hfind, hsname⟩ := findChain_complete img name img.nchain c j0 hr hname0
      have hFD : FindDynamicSymbol img name = some s := by
        simp [FindDynamicSymbol, hbk, hfind]
      obtain ⟨j1, hmem1, hsy1, _⟩ := findChain_some img name img.nchain c s hfind
      have hj1lt : j1 < img.syms.length := getSymbol_lt img hsy1
      have hname1 : symName img j1 = some name := by simp [symName, hsy1, hsname]
      have e1 : j1 = j0 := huniq j1 hj1lt j0 hj0 (by simp [hname1]) (by rw [hname1, hname0])
      have hs0 : GetSymbol img j0 = some s := e1 ▸ hsy1
      have hsmem : s ∈ img.syms := by
        obtain ⟨hlt, he⟩ := List.getElem?_eq_some.mp hs0
        exact he ▸ List.getElem_mem hlt
      have hLSsome : ∃ t, linearScanSymbol img name = some t := by
        cases hls : linearScanSymbol img name with
        | some t => exact ⟨t, rfl⟩
        | none =>
          exact absurd (List.find?_eq_none.mp hls s hsmem) (by simp [hsname])
      obtain ⟨t, ht⟩ := hLSsome
      have htname : t.name = some name := by
        have := List.find?_some ht
        simpa using this
      obtain ⟨k, hk, hkt⟩ := List.mem_iff_getElem.mp (List.mem_of_find?_eq_some ht)
      have hkq : GetSymbol img k = some t := by
        simp [GetSymbol, List.getElem?_eq_getElem hk, hkt]
      have hknm : symName img k = some name := by simp [symName, hkq, htname]
      have e2 : k = j0 := huniq k hk j0 hj0 (by simp [hknm]) (by rw [hknm, hname0])
      have hts : t = s := by
        have hq := e2 ▸ hkq
        rw [hs0] at hq
        exact (Option.some.inj hq).symm
      rw [FindDynamicSymbolAddress, linearScanAddress, hFD, ht, hts]
  · push_neg at hpres
    have hls : linearScanSymbol img name = none := by
      apply List.find?_eq_none.mpr
      intro x hx
      simp only [decide_eq_true_eq]
      intro hxe
      obtain ⟨k, hk, hkx⟩ := List.mem_iff_getElem.mp hx
      have hkq : GetSymbol img k = some x := by
        simp [GetSymbol, List.getElem?_eq_getElem hk, hkx]
      exact hpres k hk (by simp [symName, hkq, hxe])
    have hfd : FindDynamicSymbol img name = none := by
      cases hf : FindDynamicSymbol img name with
      | none => rfl
      | some s =>
        exfalso
        simp only [FindDynamicSymbol] at hf
        cases hbk : GetHashBucket img (elf_hash name % img.nbucket) with
        | none => simp [hbk] at hf
        | some c =>
          simp only [hbk] at hf
          obtain ⟨j, hmemj, hsy, hnm⟩ := findChain_some img name img.nchain c s hf
          exact hpres j (getSymbol_lt img hsy) (by simp [symName, hsy, hnm])
    simp [FindDynamicSymbolAddress, linearScanAddress, hfd, hls]

/-- Concrete image with the single dynamic symbol `"oatdata"` at slot 1,
one bucket, and a well-formed chain, used to instantiate the refinement
theorem. -/
def imgOat : Image :=
  { syms := [⟨none, 0⟩, ⟨some [111, 97, 116, 100, 97, 116, 97], 0x2a00⟩],
    bucket := [1],
    chain := [0, 0] }

theorem findDynamicSymbolAddress_eq_linearScan_witness :
    FindDynamicSymbolAddress imgOat 0x1000 [111, 97, 116, 100, 97, 116, 97] =
      linearScanAddress imgOat 0x1000 [111, 97, 116, 100, 97, 116, 97] ∧
    FindDynamicSymbolAddress imgOat 0x1000 [109, 105, 115, 115] =
      linearScanAddress imgOat 0x1000 [109, 105, 115, 115] :=
  ⟨findDynamicSymbolAddress_eq_linearScan imgOat 0x1000 _ (by decide),
   findDynamicSymbolAddress_eq_linearScan imgOat 0x1000 _ (by decide)⟩

/-- C2: the symbol hash implements the standard ELF rolling hash — it
folds the byte-wise step `h = (h << 4) + byte` with the top-nibble folding
over the name; `elf_hash` of the empty name is 0, equal inputs hash
equally, and the bucket index `h mod nbucket` is below any positive
`nbucket`. -/
theorem elf_hash_spec :
    elf_hash [] = 0 ∧
    (∀ nm b, elf_hash (nm ++ [b]) = elfHashStep (elf_hash nm) b) ∧
    (∀ a b : Name, a = b → elf_hash a = elf_hash b) ∧
    (∀ nm n, 0 < n → elf_hash nm % n < n) := by
  refine ⟨rfl, ?_, ?_, ?_⟩
  · intro nm b
    simp [elf_hash, List.foldl_append]
  · intro a b h
    rw [h]
  · intro nm n hn
    exact Nat.mod_lt _ hn

theorem elf_hash_spec_witness :
    elf_hash ([111, 97] ++ [116]) = elfHashStep (elf_hash [111, 97]) 116 ∧
    elf_hash [111, 97, 116] = elf_hash [111, 97, 116] ∧
    elf_hash [111, 97, 116] % 7 < 7 :=
  ⟨elf_hash_spec.2.1 [111, 97] 116,
   elf_hash_spec.2.2.1 [111, 97, 116] [111, 97, 116] rfl,
   elf_hash_spec.2.2.2 [111, 97, 116] 7 (by decide)⟩

/-- C3: on every image — a corrupted, cyclic chain array included —
resolving a name absent from the dynamic symbol table returns not-found,
and the walk traverses at most `nchain` chain links (it always
terminates). -/
theorem findDynamicSymbol_absent_bounded (img : Image) (base : Nat) (name : Name)
    (habsent : ∀ s ∈ img.syms, s.name ≠ some name) :
    FindDynamicSymbolAddress img base name = none ∧
    FindDynamicSymbolLinks img name ≤ img.nchain := by
  constructor
  · have hfd : FindDynamicSymbol img name = none := by
      cases hf : FindDynamicSymbol img name with
      | none => rfl
      | some s =>
        exfalso
        simp only [FindDynamicSymbol] at hf
        cases hbk : GetHashBucket img (elf_hash name % img.nbucket) with
        | none => simp [hbk] at hf
        | some c =>
          simp only [hbk] at hf
          obtain ⟨j, _, hsy, hnm⟩ := findChain_some img name img.nchain c s hf
          have hsmem : s ∈ img.syms := by
            obtain ⟨hlt, he⟩ := List.getElem?_eq_some.mp hsy
            exact he ▸ List.getElem_mem hlt
          exact habsent s hsmem hnm
    simp [FindDynamicSymbolAddress, hfd]
  · simp only [FindDynamicSymbolLinks]
    cases hbk : GetHashBucket img (elf_hash name % img.nbucket) with
    | none => simp
    | some c => simpa using findChainSteps_le img name img.nchain c

/-- Concrete corrupted image whose chain array contains the cycle
`chain[1] = 1`, used to instantiate the termination theorem. -/
def imgCycle : Image :=
  { syms := [⟨none, 0⟩, ⟨some [120], 7⟩],
    bucket := [1],
    chain := [0, 1] }

theorem findDynamicSymbol_absent_bounded_witness :
    FindDynamicSymbolAddress imgCycle 0 [109, 105, 115, 115] = none ∧
    FindDynamicSymbolLinks imgCycle [109, 105, 115, 115] ≤ imgCycle.nchain :=
  findDynamicSymbol_absent_bounded imgCycle 0 [109, 105, 115, 115] (by decide)

lemma findChainTrace_fst (img : Image) (name : Name) :
    ∀ fuel i, (findChainTrace img name fuel i).1 = findChain img name fuel i := by
  intro fuel
  induction fuel with
  | zero => intro i; simp [findChainTrace, findChain]
  | succ fuel ih =>
    intro i
    simp only [findChainTrace, findChain]
    by_cases hi : i = 0
    · simp [hi]
    rw [if_neg hi, if_neg hi]
    cases hsym : GetSymbol img i with
    | none => simp
    | some si =>
      simp only
      by_cases hn : si.name = some name
      · simp [hn]
      · rw [if_neg hn, if_neg hn]
        cases hch : GetHashChain img i with
        | none => simp
        | some j => simpa using ih j

lemma findChainTrace_inRange (img : Image) (name : Name) :
    ∀ fuel i, ∀ a ∈ (findChainTrace img name fuel i).2, accessInRange img a := by
  intro fuel
  induction fuel with
  | zero => intro i a ha; simp [findChainTrace] at ha
  | succ fuel ih =>
    intro i a ha
    simp only [findChainTrace] at ha
    by_cases hi : i = 0
    · simp [hi] at ha
    rw [if_neg hi] at ha
    cases hsym : GetSymbol img i with
    | none => simp [hsym] at ha
    | some si =>
      simp only [hsym] at ha
      by_cases hn : si.name = some name
      · simp [hn] at ha
      rw [if_neg hn] at ha
      cases hch : GetHashChain img i with
      | none => simp [hch] at ha
      | some j =>
        simp only [hch, List.mem_cons] at ha
        rcases ha with rfl | ha
        · have hlt : i < img.chain.length := (List.getElem?_eq_some.mp hch).1
          simpa [accessInRange, Image.nchain] using hlt
        · exact ih j a ha

/-- C4: dynamic-symbol resolution performs no access outside the declared
bucket/chain lengths: the instrumented resolver computes the same result
while every read it performs is in range, and whenever a range check on
the bucket, the symbol fetch, or the chain fails, resolution returns
not-found instead of accessing. -/
theorem hash_lookup_bounds (img : Image) (name : Name) :
    (FindDynamicSymbolTraced img name).1 = FindDynamicSymbol img name ∧
    (∀ a ∈ (FindDynamicSymbolTraced img name).2, accessInRange img a) ∧
    (GetHashBucket img (elf_hash name % img.nbucket) = none →
      FindDynamicSymbol img name = none) ∧
    (∀ fuel i, i ≠ 0 → GetSymbol img i = none →
      findChain img name (fuel + 1) i = none) ∧
    (∀ fuel i s, i ≠ 0 → GetSymbol img i = some s → s.name ≠ some name →
      GetHashChain img i = none → findChain img name (fuel + 1) i = none) := by
  refine ⟨?_, ?_, ?_, ?_, ?_⟩
  · simp only [FindDynamicSymbolTraced, FindDynamicSymbol]
    cases hbk : GetHashBucket img (elf_hash name % img.nbucket) with
    | none => simp
    | some c => simpa using findChainTrace_fst img name img.nchain c
  · intro a ha
    simp only [FindDynamicSymbolTraced] at ha
    cases hbk : GetHashBucket img (elf_hash name % img.nbucket) with
    | none => simp [hbk] at ha
    | some c =>
      simp only [hbk, List.mem_cons] at ha
      rcases ha with rfl | ha
      · have hlt : elf_hash name % img.nbucket < img.bucket.length :=
          (List.getElem?_eq_some.mp hbk).1
        simpa [accessInRange, Image.nbucket] using hlt
      · exact findChainTrace_inRange img name img.nchain c a ha
  · intro hbk
    simp [FindDynamicSymbol, hbk]
  · intro fuel i hi hsym
    simp [findChain, if_neg hi, hsym]
  · intro fuel i s hi hsym hn hch
    simp [findChain, if_neg hi, hsym, if_neg hn, hch]

/-- Concrete corrupted image whose single bucket holds the out-of-range
chain index 5, used to instantiate the bounds theorem. -/
def imgOutOfRange : Image :=
  { syms := [⟨none, 0⟩, ⟨some [120], 7⟩],
    bucket := [5],
    chain := [0, 0] }

/-- Concrete corrupted image whose chain array is shorter than its symbol
table, so following the chain from slot 1 fails the range check. -/
def imgChainCut : Image :=
  { syms := [⟨none, 0⟩, ⟨some [120], 7⟩],
    bucket := [1],
    chain := [0] }

theorem hash_lookup_bounds_witness :
    (FindDynamicSymbolTraced imgOat [120]).1 = FindDynamicSymbol imgOat [120] ∧
    FindDynamicSymbol { syms := [], bucket := [], chain := [] } [120] = none ∧
    findChain imgOutOfRange [120] 2 5 = none ∧
    findChain imgChainCut [122] 1 1 = none :=
  ⟨(hash_lookup_bounds imgOat [120]).1,
   (hash_lookup_bounds { syms := [], bucket := [], chain := [] } [120]).2.2.1 (by decide),
   (hash_lookup_bounds imgOutOfRange [120]).2.2.2.1 1 5 (by decide) (by decide),
   (hash_lookup_bounds imgChainCut [122]).2.2.2.2 0 1 ⟨some [120], 7⟩ (by decide) (by decide)
     (by decide) (by decide)⟩

/-- Modelled from the spec: a Memory Region collaborator (`MemMap`), an
owned page-granular mapping with begin/end/size accessors. -/
structure MemMapM where
  mstart : Nat
  msz : Nat
deriving DecidableEq

/-- Begin accessor of a Memory Region. -/
def MemMapM.Begin (m : MemMapM) : Nat := m.mstart

/-- End accessor of a Memory Region: one past the last mapped byte. -/
def MemMapM.End (m : MemMapM) : Nat := m.mstart + m.msz

/-- Size accessor of a Memory Region. -/
def MemMapM.Size (m : MemMapM) : Nat := m.msz

/-- Modelled from the spec: the state of an opened loader instance — the
header mapping `map_` and the resolved `base_address_`; `Begin`, `End`
and `Size` delegate to `map_` as in `elf_file_impl.h` lines 56-66. -/
structure ElfFileImpl where
  map_ : MemMapM
  base_address_ : Nat
deriving DecidableEq

/-- Begin accessor: delegates to the header mapping. -/
def ElfFileImpl.Begin (f : ElfFileImpl) : Nat := f.map_.Begin

/-- End accessor: delegates to the header mapping. -/
def ElfFileImpl.End (f : ElfFileImpl) : Nat := f.map_.End

/-- Size accessor: delegates to the header mapping. -/
def ElfFileImpl.Size (f : ElfFileImpl) : Nat := f.map_.Size

/-- C10: for every opened loader instance the three accessors are
mutually consistent — `Size` equals `End` minus `Begin` and `Begin` never
exceeds `End`; since every state carries the same immutable header
mapping, the relation holds after every operation. -/
theorem accessors_consistent (f : ElfFileImpl) :
    f.Size = f.End - f.Begin ∧ f.Begin ≤ f.End := by
  simp [ElfFileImpl.Size, ElfFileImpl.End, ElfFileImpl.Begin,
    MemMapM.Size, MemMapM.End, MemMapM.Begin]

/-- Modelled from the spec: the layout-identifying fields of the ELF file
header read by `Open` — leading magic, class (address width), byte
order. -/
structure Ehdr where
  magic : List Nat
  klass : Nat
  order : Nat
deriving DecidableEq

/-- Modelled from the spec: the compiled layout selected at build time,
which the header's magic, class and byte order must match. -/
structure Layout where
  expectedMagic : List Nat
  expectedClass : Nat
  expectedOrder : Nat
deriving DecidableEq

/-- Modelled from the spec: `Open` — map the header region, validate the
leading magic, the class and the byte order against the compiled layout;
on any mismatch fail with a descriptive FormatError message and return no
object. -/
def openElf (layout : Layout) (hdr : Ehdr) (headerMap : MemMapM) :
    Except String ElfFileImpl :=
  if hdr.magic ≠ layout.expectedMagic then
    .error "Failed to find ELF magic in file"
  else if hdr.klass ≠ layout.expectedClass then
    .error "Failed to find expected ELF class in file"
  else if hdr.order ≠ layout.expectedOrder then
    .error "Failed to find expected ELF byte order in file"
  else
    .ok { map_ := headerMap, base_address_ := 0 }

/-- Modelled from the spec: the mappings still held after `Open` returns —
the header mapping owned by the returned object on success, and nothing
on failure (the region is unmapped on destruction of the partial
state). -/
def openLiveMappings (layout : Layout) (hdr : Ehdr) (headerMap : MemMapM) :
    List MemMapM :=
  match openElf layout hdr headerMap with
  | .ok f => [f.map_]
  | .error _ => []

/-- C5: whenever the leading magic, the class, or the byte order of the
input does not match the compiled layout, `Open` fails with a descriptive
FormatError message, returns no object, and leaves no loaded mappings
behind. -/
theorem open_bad_layout (layout : Layout) (hdr : Ehdr) (headerMap : MemMapM)
    (hbad : hdr.magic ≠ layout.expectedMagic ∨ hdr.klass ≠ layout.expectedClass ∨
      hdr.order ≠ layout.expectedOrder) :
    ∃ msg, openElf layout hdr headerMap = .error msg ∧ msg ≠ "" ∧
      openLiveMappings layout hdr headerMap = [] := by
  by_cases h1 : hdr.magic = layout.expectedMagic
  · by_cases h2 : hdr.klass = layout.expectedClass
    · by_cases h3 : hdr.order = layout.expectedOrder
      · rcases hbad with hb | hb | hb <;> exact absurd (by assumption) hb
      · refine ⟨"Failed to find expected ELF byte order in file", ?_, by simp, ?_⟩
        · simp [openElf, h1, h2, h3]
        · simp [openLiveMappings, openElf, h1, h2, h3]
    · refine ⟨"Failed to find expected ELF class in file", ?_, by simp, ?_⟩
      · simp [openElf, h1, h2]
      · simp [openLiveMappings, openElf, h1, h2]
  · refine ⟨"Failed to find ELF magic in file", ?_, by simp, ?_⟩
    · simp [openElf, h1]
    · simp [openLiveMappings, openElf, h1]

theorem open_bad_layout_witness :
    ∃ msg,
      openElf ⟨[0x7f, 69, 76, 70], 2, 1⟩ ⟨[0xca, 0xfe, 0xba, 0xbe], 2, 1⟩ ⟨0, 0x1000⟩ =
        .error msg ∧ msg ≠ "" ∧
      openLiveMappings ⟨[0x7f, 69, 76, 70], 2, 1⟩ ⟨[0xca, 0xfe, 0xba, 0xbe], 2, 1⟩
        ⟨0, 0x1000⟩ = [] :=
  open_bad_layout ⟨[0x7f, 69, 76, 70], 2, 1⟩ ⟨[0xca, 0xfe, 0xba, 0xbe], 2, 1⟩ ⟨0, 0x1000⟩
    (Or.inl (by decide))

/-- Loadable program-header type `PT_LOAD`. -/
def PT_LOAD : Nat := 1

/-- Modelled from the spec: a program-header entry (`Elf_Phdr`) — type,
file offset, virtual address, file size, memory size, read/write/execute
flags, alignment. -/
structure Phdr where
  p_type : Nat
  p_offset : Nat
  p_vaddr : Nat
  p_filesz : Nat
  p_memsz : Nat
  p_flags_r : Bool
  p_flags_w : Bool
  p_flags_x : Bool
  p_align : Nat
deriving DecidableEq

/-- The loadable program-header entries, in header order. -/
def loadablePhdrs (phdrs : List Phdr) : List Phdr :=
  phdrs.filter (fun p => p.p_type == PT_LOAD)

/-- The largest segment alignment observed over the loadable entries. -/
def maxAlign (phdrs : List Phdr) : Nat :=
  (loadablePhdrs phdrs).foldl (fun m p => max m p.p_align) 0

/-- Round `x` down to a multiple of `a`; alignment 0 means no constraint. -/
def alignDown (x a : Nat) : Nat :=
  if a = 0 then x else x - x % a

/-- Round `x` up to a multiple of `a`; alignment 0 means no constraint. -/
def alignUp (x a : Nat) : Nat :=
  if a = 0 then x else (x + a - 1) / a * a

/-- Minimum virtual address over a nonempty loadable list, scanned as the
loader does. -/
def minVaddr (p : Phdr) (ps : List Phdr) : Nat :=
  ps.foldl (fun m q => min m q.p_vaddr) p.p_vaddr

/-- Maximum `virtual_address + memory_size` over a nonempty loadable
list, scanned as the loader does. -/
def maxVend (p : Phdr) (ps : List Phdr) : Nat :=
  ps.foldl (fun m q => max m (q.p_vaddr + q.p_memsz)) (p.p_vaddr + p.p_memsz)

/-- Modelled from the spec: `GetLoadedAddressRange` — scan all loadable
entries, compute the minimum virtual address and the maximum
`virtual_address + memory_size`, round both outward to the largest
segment alignment observed, and return the span; FormatError when no
loadable entries exist. -/
def GetLoadedAddressRange (phdrs : List Phdr) : Except String (Nat × Nat) :=
  match loadablePhdrs phdrs with
  | [] => .error "No loadable segment"
  | p :: ps =>
    let a := maxAlign phdrs
    let lo := alignDown (minVaddr p ps) a
    let hi := alignUp (maxVend p ps) a
    .ok (lo, hi - lo)

/-- Modelled from the spec: `GetLoadedSize` — the size of the span
computed by `GetLoadedAddressRange`. -/
def GetLoadedSize (phdrs : List Phdr) : Except String Nat :=
  (GetLoadedAddressRange phdrs).map (fun r => r.2)

/-- Sum of the file sizes of the loadable segments. -/
def sumLoadableFileSizes (phdrs : List Phdr) : Nat :=
  ((loadablePhdrs phdrs).map Phdr.p_filesz).sum

/-- Loadable segments laid out in nondecreasing, nonoverlapping virtual
address order, as produced by the toolchain. -/
def sortedDisjointB : List Phdr → Bool
  | [] => true
  | [_] => true
  | p :: q :: rest =>
    decide (p.p_vaddr + p.p_memsz ≤ q.p_vaddr) && sortedDisjointB (q :: rest)

/-- A valid image for the loaded-size bound: loadable segments sorted and
nonoverlapping, file size never exceeding memory size, and a positive
largest alignment. -/
def ValidImage (phdrs : List Phdr) : Prop :=
  sortedDisjointB (loadablePhdrs phdrs) = true ∧
  (∀ p ∈ loadablePhdrs phdrs, p.p_filesz ≤ p.p_memsz) ∧
  0 < maxAlign phdrs

lemma foldl_min_le (l : List Phdr) : ∀ a : Nat, l.foldl (fun m q => min m q.p_vaddr) a ≤ a := by
  induction l with
  | nil => intro a; simp
  | cons q qs ih =>
    intro a
    simpa using le_trans (ih (min a q.p_vaddr)) (min_le_left _ _)

lemma le_foldl_max (l : List Phdr) :
    ∀ a : Nat, a ≤ l.foldl (fun m q => max m (q.p_vaddr + q.p_memsz)) a := by
  induction l with
  | nil => intro a; simp
  | cons q qs ih =>
    intro a
    simpa using le_trans (le_max_left a (q.p_vaddr + q.p_memsz)) (ih (max a _))

lemma foldl_max_mono (l : List Phdr) :
    ∀ a b : Nat, a ≤ b →
      l.foldl (fun m q => max m (q.p_vaddr + q.p_memsz)) a ≤
        l.foldl (fun m q => max m (q.p_vaddr + q.p_memsz)) b := by
  induction l with
  | nil => intro a b h; simpa using h
  | cons q qs ih =>
    intro a b h
    simpa using ih _ _ (max_le_max h (le_refl _))

lemma sorted_sum_le_maxVend :
    ∀ (p : Phdr) (ps : List Phdr), sortedDisjointB (p :: ps) = true →
      p.p_vaddr + ((p :: ps).map Phdr.p_memsz).sum ≤ maxVend p ps := by
  intro p ps
  induction ps generalizing p with
  | nil => intro _; simp [maxVend]
  | cons q qs ih =>
    intro hsort
    simp only [sortedDisjointB, Bool.and_eq_true, decide_eq_true_eq] at hsort
    obtain ⟨hpq, hrest⟩ := hsort
    have h1 : p.p_vaddr + ((p :: q :: qs).map Phdr.p_memsz).sum ≤
        q.p_vaddr + ((q :: qs).map Phdr.p_memsz).sum := by
      simp only [List.map_cons, List.sum_cons]
      omega
    have h2 := ih q hrest
    have h3 : maxVend q qs ≤ maxVend p (q :: qs) := by
      simp only [maxVend, List.foldl_cons]
      exact foldl_max_mono qs _ _ (le_max_right _ _)
    omega

lemma alignDown_le (x a : Nat) : alignDown x a ≤ x := by
  simp only [alignDown]
  split <;> omega

lemma le_alignUp (x a : Nat) : x ≤ alignUp x a := by
  simp only [alignUp]
  split
  · omega
  · rename_i ha
    have hpos : 0 < a := Nat.pos_of_ne_zero ha
    have hd := Nat.div_add_mod (x + a - 1) a
    have hm : (x + a - 1) % a < a := Nat.mod_lt _ hpos
    have hc : (x + a - 1) / a * a = a * ((x + a - 1) / a) := Nat.mul_comm _ _
    omega

lemma dvd_alignDown (x a : Nat) (ha : a ≠ 0) : a ∣ alignDown x a := by
  simp only [alignDown, if_neg ha]
  have hd := Nat.div_add_mod x a
  exact ⟨x / a, by omega⟩

lemma dvd_alignUp (x a : Nat) (ha : a ≠ 0) : a ∣ alignUp x a := by
  simp only [alignUp, if_neg ha]
  exact Dvd.intro_left _ rfl

/-- C6: `GetLoadedAddressRange` fails with a FormatError when no loadable
entries exist; on a valid image it returns the min/max virtual span
rounded outward to the largest observed alignment, and the resulting
`GetLoadedSize` is at least the sum of the loadable file sizes and a
multiple of the largest segment alignment. -/
theorem getLoadedSize_spec (phdrs : List Phdr) :
    (loadablePhdrs phdrs = [] → ∃ msg, GetLoadedAddressRange phdrs = .error msg) ∧
    (ValidImage phdrs → ∃ lo sz, GetLoadedAddressRange phdrs = .ok (lo, sz) ∧
      GetLoadedSize phdrs = .ok sz ∧
      (∃ p ps, loadablePhdrs phdrs = p :: ps ∧
        lo = alignDown (minVaddr p ps) (maxAlign phdrs) ∧
        lo + sz = alignUp (maxVend p ps) (maxAlign phdrs)) ∧
      sumLoadableFileSizes phdrs ≤ sz ∧
      maxAlign phdrs ∣ sz) := by
  constructor
  · intro hempty
    refine ⟨"No loadable segment", ?_⟩
    simp [GetLoadedAddressRange, hempty]
  · intro ⟨hsort, hfm, hpos⟩
    cases hl : loadablePhdrs phdrs with
    | nil => simp [maxAlign, hl] at hpos
    | cons p ps =>
      rw [hl] at hsort
      set a := maxAlign phdrs with ha
      have hane : a ≠ 0 := Nat.pos_iff_ne_zero.mp hpos
      set lo := alignDown (minVaddr p ps) a with hlo
      set hi := alignUp (maxVend p ps) a with hhi
      have hrange : GetLoadedAddressRange phdrs = .ok (lo, hi - lo) := by
        simp [GetLoadedAddressRange, hl, hlo, hhi, ha]
      refine ⟨lo, hi - lo, hrange, by simp [GetLoadedSize, hrange, Except.map], ⟨p, ps, rfl, rfl, ?_⟩, ?_, ?_⟩
      · have h1 : lo ≤ hi := by
          have h2 : lo ≤ minVaddr p ps := alignDown_le _ _
          have h3 : minVaddr p ps ≤ p.p_vaddr := foldl_min_le ps _
          have h4 : p.p_vaddr ≤ maxVend p ps := by
            have := le_foldl_max ps (p.p_vaddr + p.p_memsz)
            simp only [maxVend]
            omega
          have h5 : maxVend p ps ≤ hi := le_alignUp _ _
          omega
        omega
      · have hsum : ((p :: ps).map Phdr.p_memsz).sum ≤ hi - lo := by
          have h2 := sorted_sum_le_maxVend p ps hsort
          have h3 : minVaddr p ps ≤ p.p_vaddr := foldl_min_le ps _
          have h4 : lo ≤ minVaddr p ps := alignDown_le _ _
          have h5 : maxVend p ps ≤ hi := le_alignUp _ _
          omega
        have hfile : sumLoadableFileSizes phdrs ≤ ((p :: ps).map Phdr.p_memsz).sum := by
          simp only [sumLoadableFileSizes, hl]
          exact List.sum_le_sum (by intro q hq; exact hfm q (hl ▸ hq))
        omega
      · exact Nat.dvd_sub' (dvd_alignUp _ _ hane) (dvd_alignDown _ _ hane)

/-- Concrete single-loadable-segment program-header table used to
instantiate the loaded-size theorem. -/
def phdrW : Phdr :=
  { p_type := 1, p_offset := 0, p_vaddr := 0, p_filesz := 0x1000, p_memsz := 0x1000,
    p_flags_r := true, p_flags_w := false, p_flags_x := true, p_align := 0x1000 }

theorem getLoadedSize_spec_witness :
    (∃ msg, GetLoadedAddressRange [] = .error msg) ∧
    (∃ lo sz, GetLoadedAddressRange [phdrW] = .ok (lo, sz) ∧
      GetLoadedSize [phdrW] = .ok sz ∧
      (∃ p ps, loadablePhdrs [phdrW] = p :: ps ∧
        lo = alignDown (minVaddr p ps) (maxAlign [phdrW]) ∧
        lo + sz = alignUp (maxVend p ps) (maxAlign [phdrW])) ∧
      sumLoadableFileSizes [phdrW] ≤ sz ∧
      maxAlign [phdrW] ∣ sz) :=
  ⟨(getLoadedSize_spec []).1 rfl,
   (getLoadedSize_spec [phdrW]).2 (by refine ⟨by decide, ?_, by decide⟩; decide)⟩

/-- Memory protection of a mapping. -/
structure Prot where
  r : Bool
  w : Bool
  x : Bool
deriving DecidableEq

/-- One established per-segment mapping: start address, size, protection. -/
structure Mapping where
  start : Nat
  msize : Nat
  prot : Prot
deriving DecidableEq

/-- Modelled from the spec: the protection of a loadable segment's
mapping — read/write/execute per the segment's flags when loading for
execution; downgraded to non-executable (read/write for inspection and
patching) universally when `executable = false`, independent of the
segment's own execute flag. -/
def segmentProt (p : Phdr) (executable : Bool) : Prot :=
  if executable then ⟨p.p_flags_r, p.p_flags_w, p.p_flags_x⟩
  else ⟨true, true, false⟩

/-- Modelled from the spec: the mapping established for one loadable
segment — placed at `base_address_ + virtual_address`, sized to its
memory size, with `segmentProt` protection. -/
def mapSegment (base : Nat) (executable : Bool) (p : Phdr) : Mapping :=
  ⟨base + p.p_vaddr, p.p_memsz, segmentProt p executable⟩

/-- Reason a `Load` failed to place or map. -/
inductive AllocFail where
  | placement (size : Nat) (low4gb : Bool)
  | segment (off vaddr filesz memsz : Nat)
deriving DecidableEq

/-- Error taxonomy of `Load`: FormatError with a message, or
AllocationError with the failure's parameters. -/
inductive LoadError where
  | formatError (msg : String)
  | allocationError (f : AllocFail)
deriving DecidableEq

/-- Modelled from the spec: mapping each loadable segment in header
order; the mapping system call for step `k` succeeds iff `sysOk k`, and
the first failure aborts the whole sequence with an AllocationError
carrying the offending segment's parameters (the mappings already
established are owned by the aborted call and unmapped). -/
def mapSegments (base : Nat) (executable : Bool) (sysOk : Nat → Bool) :
    List Phdr → Nat → Except LoadError (List Mapping)
  | [], _ => .ok []
  | p :: ps, k =>
    if sysOk k then
      match mapSegments base executable sysOk ps (k + 1) with
      | .ok ms => .ok (mapSegment base executable p :: ms)
      | .error e => .error e
    else
      .error (.allocationError (.segment p.p_offset p.p_vaddr p.p_filesz p.p_memsz))

/-- A successfully loaded image: the resolved base address and the
retained per-segment mapping list (`segments_`). -/
structure LoadedImage where
  base_address_ : Nat
  segments_ : List Mapping
deriving DecidableEq

/-- Base address accessor of a loaded image. -/
def GetBaseAddress (res : LoadedImage) : Nat := res.base_address_

/-- Modelled from the spec: `Load` — compute the required span via
`GetLoadedAddressRange`, request a region from the platform allocator
`alloc` honoring the low-4GB constraint (AllocationError if none can be
found), make the resolved start the base address, then map each loadable
segment in header order; any per-segment failure aborts the call. -/
def Load (alloc : Nat → Bool → Option Nat) (sysOk : Nat → Bool)
    (phdrs : List Phdr) (executable low4gb : Bool) :
    Except LoadError LoadedImage :=
  match GetLoadedAddressRange phdrs with
  | .error msg => .error (.formatError msg)
  | .ok (_, sz) =>
    match alloc sz low4gb with
    | none => .error (.allocationError (.placement sz low4gb))
    | some base =>
      match mapSegments base executable sysOk (loadablePhdrs phdrs) 0 with
      | .error e => .error e
      | .ok ms => .ok ⟨base, ms⟩

/-- Modelled from the spec: the per-segment mappings still established
after a `Load` call returns — the retained `segments_` list on success,
nothing on failure (partial state is unmapped before returning). -/
def liveSegmentsAfterLoad (alloc : Nat → Bool → Option Nat) (sysOk : Nat → Bool)
    (phdrs : List Phdr) (executable low4gb : Bool) : List Mapping :=
  match Load alloc sysOk phdrs executable low4gb with
  | .ok res => res.segments_
  | .error _ => []

lemma mapSegments_ok (base : Nat) (executable : Bool) (sysOk : Nat → Bool) :
    ∀ l k ms, mapSegments base executable sysOk l k = .ok ms →
      ms = l.map (mapSegment base executable) := by
  intro l
  induction l with
  | nil => intro k ms h; simpa [mapSegments] using h.symm
  | cons p ps ih =>
    intro k ms h
    simp only [mapSegments] at h
    by_cases hk : sysOk k
    · rw [if_pos hk] at h
      cases hrec : mapSegments base executable sysOk ps (k + 1) with
      | error e => simp [hrec] at h
      | ok ms1 =>
        simp only [hrec] at h
        obtain rfl := Option.some.inj (congrArg Except.toOption h).symm
        simp [ih (k + 1) ms1 hrec]
    · simp [if_neg hk] at h

lemma mapSegments_all_ok (base : Nat) (executable : Bool) (sysOk : Nat → Bool) :
    ∀ l k, (∀ j, j < l.length → sysOk (k + j) = true) →
      mapSegments base executable sysOk l k = .ok (l.map (mapSegment base executable)) := by
  intro l
  induction l with
  | nil => intro k _; simp [mapSegments]
  | cons p ps ih =>
    intro k hall
    have h0 : sysOk k = true := by simpa using hall 0 (by simp)
    have hrec := ih (k + 1) (by
      intro j hj
      have := hall (j + 1) (by simpa using Nat.succ_lt_succ hj)
      simpa [Nat.add_assoc, Nat.add_comm 1 j] using this)
    simp [mapSegments, h0, hrec]

lemma mapSegments_fail_at (base : Nat) (executable : Bool) (sysOk : Nat → Bool) :
    ∀ l k i p, l[i]? = some p → (∀ j, j < i → sysOk (k + j) = true) →
      sysOk (k + i) = false →
      mapSegments base executable sysOk l k =
        .error (.allocationError (.segment p.p_offset p.p_vaddr p.p_filesz p.p_memsz)) := by
  intro l
  induction l with
  | nil => intro k i p hp _ _; simp at hp
  | cons q qs ih =>
    intro k i p hp hbefore hfail
    cases i with
    | zero =>
      obtain rfl : q = p := by simpa using hp
      simp only [Nat.add_zero] at hfail
      simp [mapSegments, hfail]
    | succ i =>
      have h0 : sysOk k = true := by simpa using hbefore 0 (Nat.succ_pos i)
      have hrec := ih (k + 1) i p (by simpa using hp)
        (by
          intro j hj
          have := hbefore (j + 1) (Nat.succ_lt_succ hj)
          simpa [Nat.add_assoc, Nat.add_comm 1 j] using this)
        (by simpa [Nat.add_assoc, Nat.add_comm 1 i] using hfail)
      simp [mapSegments, h0, hrec]

lemma load_ok_shape (alloc : Nat → Bool → Option Nat) (sysOk : Nat → Bool)
    (phdrs : List Phdr) (executable low4gb : Bool) (res : LoadedImage)
    (h : Load alloc sysOk phdrs executable low4gb = .ok res) :
    res.segments_ = (loadablePhdrs phdrs).map (mapSegment res.base_address_ executable) ∧
    (∃ sz, GetLoadedSize phdrs = .ok sz ∧ alloc sz low4gb = some res.base_address_) := by
  simp only [Load] at h
  cases hr : GetLoadedAddressRange phdrs with
  | error msg => simp [hr] at h
  | ok pr =>
    obtain ⟨lo, sz⟩ := pr
    simp only [hr] at h
    cases hal : alloc sz low4gb with
    | none => simp [hal] at h
    | some base =>
      simp only [hal] at h
      cases hms : mapSegments base executable sysOk (loadablePhdrs phdrs) 0 with
      | error e => simp [hms] at h
      | ok ms =>
        simp only [hms] at h
        obtain rfl : (⟨base, ms⟩ : LoadedImage) = res := by
          simpa using h
        exact ⟨mapSegments_ok base executable sysOk _ 0 ms hms,
          sz, by simp [GetLoadedSize, hr, Except.map], hal⟩

/-- Program-header table of the spec's minimal example image: one
loadable segment at file offset 0, size 0x1000, vaddr 0, alignment
0x1000, flags read+execute. -/
def phdrsScen : List Phdr := [phdrW]

/-- Always-succeeding platform allocator placing the image at 0x70000000. -/
def allocW (size : Nat) (low4gb : Bool) : Option Nat :=
  if size = 0 then none else some 0x70000000

/-- Always-succeeding mapping system call. -/
def sysOkAll (k : Nat) : Bool := true

/-- C7: with `executable = false` every mapping `Load` establishes has
execute permission stripped regardless of the segment's own execute flag;
on the minimal example image (one loadable segment, offset 0, size
0x1000, vaddr 0, alignment 0x1000, flags read+execute),
`Load(executable=false)` yields one mapping of size 0x1000 with
write-and-read-only (no execute) protection whose start equals
`GetBaseAddress()`. -/
theorem load_nonexecutable_prot :
    (∀ alloc sysOk phdrs low4gb res,
      Load alloc sysOk phdrs false low4gb = .ok res →
      ∀ m ∈ res.segments_, m.prot.x = false) ∧
    (∃ res, Load allocW sysOkAll phdrsScen false false = .ok res ∧
      res.segments_ = [⟨GetBaseAddress res, 0x1000, ⟨true, true, false⟩⟩]) := by
  constructor
  · intro alloc sysOk phdrs low4gb res h m hm
    obtain ⟨hseg, -⟩ := load_ok_shape alloc sysOk phdrs false low4gb res h
    rw [hseg] at hm
    obtain ⟨p, -, rfl⟩ := List.mem_map.mp hm
    simp [mapSegment, segmentProt]
  · exact ⟨⟨0x70000000, [⟨0x70000000, 0x1000, ⟨true, true, false⟩⟩]⟩, by rfl, by rfl⟩

theorem load_nonexecutable_prot_witness :
    ∀ m ∈ (⟨0x70000000, [⟨0x70000000, 0x1000, ⟨true, true, false⟩⟩]⟩ : LoadedImage).segments_,
      m.prot.x = false :=
  load_nonexecutable_prot.1 allocW sysOkAll phdrsScen false
    ⟨0x70000000, [⟨0x70000000, 0x1000, ⟨true, true, false⟩⟩]⟩ (by rfl)

/-- C8: if the `i`-th per-segment mapping fails (all earlier ones having
succeeded), the whole `Load` aborts with an AllocationError carrying that
segment's offset/vaddr/filesz/memsz and no segment mapping of the call
stays established; if every mapping succeeds, all of them are retained in
the loader's segment list. -/
theorem load_partial_failure (alloc : Nat → Bool → Option Nat) (sysOk : Nat → Bool)
    (phdrs : List Phdr) (executable low4gb : Bool) (lo sz base : Nat)
    (hr : GetLoadedAddressRange phdrs = .ok (lo, sz))
    (hal : alloc sz low4gb = some base) :
    (∀ i p, (loadablePhdrs phdrs)[i]? = some p → (∀ j, j < i → sysOk j = true) →
      sysOk i = false →
      Load alloc sysOk phdrs executable low4gb =
        .error (.allocationError (.segment p.p_offset p.p_vaddr p.p_filesz p.p_memsz)) ∧
      liveSegmentsAfterLoad alloc sysOk phdrs executable low4gb = []) ∧
    ((∀ j, j < (loadablePhdrs phdrs).length → sysOk j = true) →
      Load alloc sysOk phdrs executable low4gb =
        .ok ⟨base, (loadablePhdrs phdrs).map (mapSegment base executable)⟩ ∧
      liveSegmentsAfterLoad alloc sysOk phdrs executable low4gb =
        (loadablePhdrs phdrs).map (mapSegment base executable)) := by
  constructor
  · intro i p hp hbefore hfail
    have hms := mapSegments_fail_at base executable sysOk (loadablePhdrs phdrs) 0 i p hp
      (by intro j hj; simpa using hbefore j hj) (by simpa using hfail)
    have hload : Load alloc sysOk phdrs executable low4gb =
        .error (.allocationError (.segment p.p_offset p.p_vaddr p.p_filesz p.p_memsz)) := by
      simp [Load, hr, hal, hms]
    exact ⟨hload, by simp [liveSegmentsAfterLoad, hload]⟩
  · intro hall
    have hms := mapSegments_all_ok base executable sysOk (loadablePhdrs phdrs) 0
      (by intro j hj; simpa using hall j hj)
    have hload : Load alloc sysOk phdrs executable low4gb =
        .ok ⟨base, (loadablePhdrs phdrs).map (mapSegment base executable)⟩ := by
      simp [Load, hr, hal, hms]
    exact ⟨hload, by simp [liveSegmentsAfterLoad, hload]⟩

/-- Two-loadable-segment table used to instantiate the partial-failure
theorem. -/
def phdrsTwo : List Phdr :=
  [phdrW,
   { p_type := 1, p_offset := 0x1000, p_vaddr := 0x2000, p_filesz := 0x800,
     p_memsz := 0x1000, p_flags_r := true, p_flags_w := true, p_flags_x := false,
     p_align := 0x1000 }]

/-- Mapping oracle whose second mapping system call fails. -/
def sysOkFailSnd (k : Nat) : Bool := k == 0

theorem load_partial_failure_witness :
    (Load allocW sysOkFailSnd phdrsTwo true false =
      .error (.allocationError (.segment 0x1000 0x2000 0x800 0x1000)) ∧
      liveSegmentsAfterLoad allocW sysOkFailSnd phdrsTwo true false = []) ∧
    (Load allocW sysOkAll phdrsTwo true false =
      .ok ⟨0x70000000, (loadablePhdrs phdrsTwo).map (mapSegment 0x70000000 true)⟩ ∧
      liveSegmentsAfterLoad allocW sysOkAll phdrsTwo true false =
        (loadablePhdrs phdrsTwo).map (mapSegment 0x70000000 true)) :=
  ⟨(load_partial_failure allocW sysOkFailSnd phdrsTwo true false 0 0x3000 0x70000000
      (by rfl) (by rfl)).1 1
      ⟨1, 0x1000, 0x2000, 0x800, 0x1000, true, true, false, 0x1000⟩
      (by rfl) (by decide) (by decide),
   (load_partial_failure allocW sysOkAll phdrsTwo true false 0 0x3000 0x70000000
      (by rfl) (by rfl)).2 (by intro j hj; rfl)⟩

/-- C9: under an allocator that honors the low-4GB placement constraint,
every successful `Load` requested with `low_4gb` returns a base address
strictly below `2 ^ 32`. -/
theorem load_low4gb (alloc : Nat → Bool → Option Nat) (sysOk : Nat → Bool)
    (phdrs : List Phdr) (executable : Bool) (res : LoadedImage)
    (halloc : ∀ sz b, alloc sz true = some b → b < 2 ^ 32)
    (h : Load alloc sysOk phdrs executable true = .ok res) :
    GetBaseAddress res < 2 ^ 32 := by
  obtain ⟨-, sz, -, hal⟩ := load_ok_shape alloc sysOk phdrs executable true res h
  exact halloc sz res.base_address_ hal

/-- Low-placing allocator used to instantiate the low-4GB theorem. -/
def allocLow (size : Nat) (low4gb : Bool) : Option Nat :=
  if size = 0 then none else some 0x1000

theorem load_low4gb_witness :
    GetBaseAddress ⟨0x1000, [⟨0x1000, 0x1000, ⟨true, true, false⟩⟩]⟩ < 2 ^ 32 :=
  load_low4gb allocLow sysOkAll phdrsScen false
    ⟨0x1000, [⟨0x1000, 0x1000, ⟨true, true, false⟩⟩]⟩
    (fun sz b hb => by
      by_cases hsz : sz = 0
      · simp [allocLow, hsz] at hb
      · simp only [allocLow, if_neg hsz, Option.some.injEq] at hb
        omega)
    (by rfl)

end ElfFile
